import Mathlib

/-!
Verification development for the HMA1 hierarchical modeling algorithm
(file sdv/relational/hma.py).  Pandas series and dataframes are embedded
as lists and association lists over exact rationals; the pluggable table
model capability (fit, sample, get_parameters, get_likelihood) is taken
as an abstract function argument, and python exceptions that the source
catches are embedded as values of an Except type.
-/

namespace HMA

/-- Association list lookup, modeling python dict access and pandas
label lookup: returns the value of the first matching key, none when
the key is absent (dict access raising KeyError is modeled by the
caller matching on none). -/
def alookup {α β : Type} [DecidableEq α] (k : α) : List (α × β) → Option β
  | [] => none
  | (a, b) :: rest => if a = k then some b else alookup k rest

/-- Association list update of the first entry holding key k, modeling
assignment to an existing dict key or dataframe column. -/
def aupdate {α β : Type} [DecidableEq α] (k : α) (v : β) : List (α × β) → List (α × β)
  | [] => []
  | (a, b) :: rest => if a = k then (a, v) :: rest else (a, b) :: aupdate k v rest

/-- True exactly on successful Except results. -/
def exceptOk {ε α : Type} : Except ε α → Bool
  | .ok _ => true
  | .error _ => false

/-- First-occurrence deduplication, modeling pandas Series.unique,
which keeps values in order of first appearance; seen is the
accumulator of values already emitted. -/
def uniqueKeep : List ℕ → List ℕ → List ℕ
  | [], _ => []
  | x :: xs, seen => if x ∈ seen then uniqueKeep xs seen else x :: uniqueKeep xs (x :: seen)

/-- Maximum of a list of rationals, modeling pandas Series.max, which
is undefined (NaN) on an empty series. -/
def listMax : List ℚ → Option ℚ
  | [] => none
  | x :: xs =>
    match listMax xs with
    | none => some x
    | some m => some (max x m)

/- ===== Likelihood fallback ladder: HMA1._find_parent_id ===== -/

/-- Mean of a series that may contain undefined entries, modeling
pandas Series.mean which skips NaN entries and is itself NaN when
there is no valid entry. -/
def seriesMean (liks : List (Option ℚ)) : Option ℚ :=
  if (liks.filterMap id).length = 0 then none
  else some ((liks.filterMap id).sum / ((liks.filterMap id).length : ℚ))

/-- The likelihood-filling branch of HMA1._find_parent_id, translated
from the source: if all likelihoods are (defined and) zero, use
num_rows; else if the mean is NaN or zero, fill the undefined entries
with the aligned num_rows values; else fill the undefined entries with
the mean. -/
def fillLikelihoods (liks : List (Option ℚ)) (numRows : List ℚ) : List ℚ :=
  if liks.all (fun x => decide (x = some 0)) then numRows
  else if seriesMean liks = none ∨ seriesMean liks = some 0 then
    List.zipWith (fun l e => l.getD e) liks numRows
  else
    liks.map (fun l => l.getD ((seriesMean liks).getD 0))

/-- The weight-normalization tail of HMA1._find_parent_id: when the
filled likelihoods sum to zero the weights are uniform, otherwise each
weight is the filled value divided by the total. -/
def normalizeWeights (filled : List ℚ) : List ℚ :=
  if filled.sum = 0 then List.replicate filled.length (1 / (filled.length : ℚ))
  else filled.map (fun x => x / filled.sum)

/-- The weight vector that HMA1._find_parent_id hands to
numpy.random.choice, as a function of the likelihood series (undefined
entries modeling singular-matrix and missing-capability failures) and
the aligned expected-row-count series. -/
def findParentIdWeights (liks : List (Option ℚ)) (numRows : List ℚ) : List ℚ :=
  normalizeWeights (fillLikelihoods liks numRows)

/-- Modeled from the specification wording of the fallback ladder, for
comparison with the source translation findParentIdWeights: if all
likelihoods are exactly zero, the weights are the expected row counts;
else if the mean of the valid likelihoods is undefined or zero,
undefined entries are replaced by their expected row counts and zero
entries stay zero; otherwise only the undefined entries are replaced
by the mean of the valid likelihoods. -/
def specFillLadder (liks : List (Option ℚ)) (expected : List ℚ) : List ℚ :=
  if liks.all (fun x => decide (x = some 0)) then expected
  else if liks.filterMap id = [] ∨ (liks.filterMap id).sum = 0 then
    List.zipWith (fun l e =>
      match l with
      | none => e
      | some v => v) liks expected
  else
    liks.map (fun l =>
      match l with
      | none => (liks.filterMap id).sum / ((liks.filterMap id).length : ℚ)
      | some v => v)

/-- Modeled from the specification wording: if the resulting weights
sum to zero, the draw is uniform over all candidate parents, otherwise
the draw is proportional to the resulting weights. -/
def specLadderWeights (liks : List (Option ℚ)) (expected : List ℚ) : List ℚ :=
  if (specFillLadder liks expected).sum = 0 then
    List.replicate (specFillLadder liks expected).length
      (1 / ((specFillLadder liks expected).length : ℚ))
  else (specFillLadder liks expected).map (fun x => x / (specFillLadder liks expected).sum)

/- ===== HMA1._get_likelihoods ===== -/

/-- One column of the likelihood dataframe built by
HMA1._get_likelihoods: evaluating the model reconstructed from one
candidate parent row on all child rows.  An AttributeError or a
numpy.linalg.LinAlgError is caught and recorded as None, which pandas
broadcasts to an all-NaN column of height numChild. -/
def getLikelihoodColumn (evalLik : ℕ → Except Unit (List ℚ)) (numChild : ℕ) (parentId : ℕ) :
    List (Option ℚ) :=
  match evalLik parentId with
  | .ok vs => vs.map some
  | .error _ => List.replicate numChild none

/-- HMA1._get_likelihoods: one likelihood column per candidate parent
id; the function is total, failures having been converted to undefined
columns. -/
def getLikelihoods (evalLik : ℕ → Except Unit (List ℚ)) (numChild : ℕ)
    (parents : List ℕ) : List (ℕ × List (Option ℚ)) :=
  parents.map (fun p => (p, getLikelihoodColumn evalLik numChild p))

/- ===== String helpers modeling python str operations ===== -/

/-- Boolean list-prefix test, used to model python str.startswith on
the character lists underlying Lean strings. -/
def listIsPfx {α : Type} [DecidableEq α] : List α → List α → Bool
  | [], _ => true
  | _ :: _, [] => false
  | a :: as, b :: bs => if a = b then listIsPfx as bs else false

/-- Python str.startswith. -/
def strStartsWith (s pre : String) : Bool := listIsPfx pre.data s.data

/-- Python str.endswith. -/
def strEndsWith (s post : String) : Bool := listIsPfx post.data.reverse s.data.reverse

/-- Python slicing s[n:] (drop the first n characters). -/
def strDrop (s : String) (n : ℕ) : String := ⟨s.data.drop n⟩

/-- Python len on strings. -/
def strLen (s : String) : ℕ := s.data.length

/-- The namespacing used for extension columns in HMA1:
two underscores, child table name, two underscores, foreign key name,
two underscores. -/
def paramPfx (tableName fk : String) : String :=
  "__" ++ tableName ++ "__" ++ fk ++ "__"

/-- The namespaced name of the reserved row-count extension column. -/
def numRowsKey (tableName fk : String) : String := paramPfx tableName fk ++ "num_rows"

/- ===== HMA1._extract_parameters ===== -/

/-- HMA1._extract_parameters: select the parent-row entries whose key
carries the namespace of the (child table, foreign key) pair, clip the
num_rows entry (when present) to the fit-time maximum recorded in the
max-child-rows registry, and strip the namespace from every key.  A
missing registry entry models the KeyError that the uncaught python
dict access would raise. -/
def extractKeys (parentRow : List (String × ℚ)) (tableName fk : String) :
    List (String × ℚ) :=
  parentRow.filter (fun kv => strStartsWith kv.1 (paramPfx tableName fk))

def extractParameters (maxChildRows : List (String × ℚ)) (parentRow : List (String × ℚ))
    (tableName fk : String) : Except Unit (List (String × ℚ)) :=
  match alookup (numRowsKey tableName fk) (extractKeys parentRow tableName fk) with
  | none =>
    .ok ((extractKeys parentRow tableName fk).map
      (fun kv => (strDrop kv.1 (strLen (paramPfx tableName fk)), kv.2)))
  | some numRows =>
    match alookup (numRowsKey tableName fk) maxChildRows with
    | none => .error ()
    | some m =>
      .ok ((aupdate (numRowsKey tableName fk) (min m numRows)
          (extractKeys parentRow tableName fk)).map
        (fun kv => (strDrop kv.1 (strLen (paramPfx tableName fk)), kv.2)))

/- ===== HMA1._get_extension ===== -/

/-- The child rows of one foreign-key-value group, in data order,
modeling child_table.loc applied to one foreign key value (a child row
is abstracted to one rational payload; the dropped child primary key
column does not affect the claims settled here). -/
def groupOf (table : List (ℕ × ℚ)) (v : ℕ) : List ℚ :=
  (table.filter (fun r => decide (r.1 = v))).map Prod.snd

/-- Namespacing of one flattened parameter row, modeling the source
line that prepends the child and foreign key namespace to the index of
the parameter series. -/
def nsRow (tableName fk : String) (ps : List (String × ℚ)) : List (String × Option ℚ) :=
  ps.map (fun kv => (paramPfx tableName fk ++ kv.1, some kv.2))

/-- The columns of a namespaced parameter row whose name ends with the
variance marker suffix scale. -/
def scaleFilter (row : List (String × Option ℚ)) : List String :=
  (row.map Prod.fst).filter (fun c => strEndsWith c "scale")

/-- Set every entry named in sc to missing, modeling row.loc
assignment of None to the scale columns. -/
def nullScales (sc : List String) (row : List (String × Option ℚ)) :
    List (String × Option ℚ) :=
  row.map (fun kv => if kv.1 ∈ sc then (kv.1, none) else kv)

/-- The loop body of HMA1._get_extension over the distinct foreign key
values: fit the group (an abstract capability returning either a
flattened parameter list or a python exception), namespace the row,
compute the scale columns on the first success, null the scale entries
of singleton groups, and silently skip groups whose fit raised. -/
def getExtensionGo (fit : List ℚ → Except Unit (List (String × ℚ))) (tableName fk : String)
    (table : List (ℕ × ℚ)) : List ℕ → Option (List String) →
    List (ℕ × List (String × Option ℚ))
  | [], _ => []
  | v :: vs, scaleCols =>
    match fit (groupOf table v) with
    | .error _ => getExtensionGo fit tableName fk table vs scaleCols
    | .ok ps =>
      let row := nsRow tableName fk ps
      let sc := scaleCols.getD (scaleFilter row)
      let row2 := if (groupOf table v).length = 1 then nullScales sc row else row
      (v, row2) :: getExtensionGo fit tableName fk table vs (some sc)

/-- HMA1._get_extension: one extension row per distinct foreign key
value present in the child data whose group fit succeeded, indexed by
foreign key value. -/
def getExtension (fit : List ℚ → Except Unit (List (String × ℚ))) (tableName fk : String)
    (table : List (ℕ × ℚ)) : List (ℕ × List (String × Option ℚ)) :=
  getExtensionGo fit tableName fk table (uniqueKeep (table.map Prod.fst) []) none

/- ===== HMA1._extend_table (num_rows column and registry) ===== -/

/-- The num_rows extension column produced by the left join of the
parent table (indexed by its primary key) with an extension frame:
undefined for parent keys absent from the extension index or whose
extension row lacks the column. -/
def mergeNumRows (parentIndex : List ℕ) (ext : List (ℕ × List (String × Option ℚ)))
    (key : String) : List (ℕ × Option ℚ) :=
  parentIndex.map (fun pk => (pk, (alookup pk ext).bind (fun row => (alookup key row).join)))

/-- Pandas fillna on a keyed column. -/
def fillnaCol (col : List (ℕ × Option ℚ)) (v : ℚ) : List (ℕ × ℚ) :=
  col.map (fun p => (p.1, p.2.getD v))

/-- The two source lines of HMA1._extend_table acting on one num_rows
column: fill missing values with 0, and compute the column maximum
that is recorded in the max-child-rows registry. -/
def extendNumRows (parentIndex : List ℕ) (ext : List (ℕ × List (String × Option ℚ)))
    (key : String) : List (ℕ × ℚ) × Option ℚ :=
  (fillnaCol (mergeNumRows parentIndex ext key) 0,
   listMax ((fillnaCol (mergeNumRows parentIndex ext key) 0).map Prod.snd))

/-- The max-child-rows registry entries written by the foreign-key
loop of HMA1._extend_table for one child table: one entry per declared
foreign key, keyed by the namespaced num_rows column name. -/
def extendTableRegistry (tableName : String) (fks : List String) (parentIndex : List ℕ)
    (extFor : String → List (ℕ × List (String × Option ℚ))) : List (String × Option ℚ) :=
  fks.map (fun fk =>
    (numRowsKey tableName fk, (extendNumRows parentIndex (extFor fk) (numRowsKey tableName fk)).2))

/- ===== HMA1._finalize ===== -/

/-- Declared column types of the schema. -/
inductive Dtype
  | intType
  | floatType
deriving DecidableEq

/-- Value-level cast to a declared type (the int cast is the numpy
truncation of the external astype call, irrelevant to the claims). -/
def castVal : Dtype → ℚ → ℚ
  | .intType, q => ((Rat.floor q : ℤ) : ℚ)
  | .floatType, q => q

/-- The source line table_rows[name] = table_rows[name].dropna().astype(dtype):
the column values with missing entries removed are cast and then
assigned back, and the assignment realigns on the row index, so a row
whose value was missing gets a missing value again; no row is removed
from the table. -/
def castColumnStep (dt : Dtype) (col : List (Option ℚ)) : List (Option ℚ) :=
  col.map (fun x => x.map (castVal dt))

/-- The per-column dtype loop of HMA1._finalize over a column-oriented
table; a declared column missing from the table models the KeyError of
the uncaught column access. -/
def applyDtypes : List (String × Dtype) → List (String × List (Option ℚ)) →
    Except Unit (List (String × List (Option ℚ)))
  | [], table => .ok table
  | (n, d) :: rest, table =>
    match alookup n table with
    | none => .error ()
    | some col => applyDtypes rest (aupdate n (castColumnStep d col) table)

/-- The final column selection table_rows[list(dtypes.keys())]: the
declared columns, in declared order. -/
def selectColumns : List (String × Dtype) → List (String × List (Option ℚ)) →
    Except Unit (List (String × List (Option ℚ)))
  | [], _ => .ok []
  | (n, _) :: rest, table =>
    match alookup n table, selectColumns rest table with
    | some col, .ok out => .ok ((n, col) :: out)
    | _, _ => .error ()

/-- HMA1._finalize restricted to one sampled table whose foreign key
columns are already present: cast every declared column and return the
declared columns in declared order. -/
def finalizeTable (dtypes : List (String × Dtype)) (table : List (String × List (Option ℚ))) :
    Except Unit (List (String × List (Option ℚ))) :=
  match applyDtypes dtypes table with
  | .error _ => .error ()
  | .ok t2 => selectColumns dtypes t2

/- ===== HMA1._sample_rows and HMA1._sample_table ===== -/

/-- Python truthiness fallback num_rows or model num_rows from
HMA1._sample_rows: both None and 0 fall back to the model fit-time
row count. -/
def pyOrNat (numRows : Option ℕ) (dflt : ℕ) : ℕ :=
  match numRows with
  | none => dflt
  | some n => if n = 0 then dflt else n

/-- HMA1._sample_rows: draw rows from the model (an abstract sampling
capability) and attach synthesized unique primary key values. -/
def sampleRowsPk (sample : ℕ → List ℚ) (modelNumRows : ℕ) (numRows : Option ℕ) :
    List (ℕ × ℚ) :=
  (List.range (sample (pyOrNat numRows modelNumRows)).length).zip
    (sample (pyOrNat numRows modelNumRows))

/-- HMA1._sample_table: default the requested count to the fit-time
table size, then sample through HMA1._sample_rows. -/
def sampleTable (sample : ℕ → List ℚ) (modelNumRows tableSize : ℕ) (numRows : Option ℕ) :
    List (ℕ × ℚ) :=
  sampleRowsPk sample modelNumRows (some (numRows.getD tableSize))

/- ===== HMA1._sample_child_rows and HMA1._sample_children ===== -/

/-- A sampled child row: payload, the foreign key column name stamped
onto it, and the foreign key value (the primary key of the parent row
it was generated from). -/
abbrev SampledRow : Type := ℚ × String × ℕ

/-- The sampled-data map threaded through sampling. -/
abbrev SampledData : Type := List (String × List SampledRow)

/-- Stamping the parent primary key value onto every freshly sampled
child row as its foreign key value. -/
def stampRows (fk : String) (pk : ℕ) (rows : List ℚ) : List SampledRow :=
  rows.map (fun r => (r, fk, pk))

/-- HMA1._sample_child_rows for one parent row: take the first
declared foreign key of the pair, sample child rows for this parent
through the abstract capability (covering parameter extraction, model
reconstruction and sampling), and, only when the batch is non-empty,
stamp it and append it to the sampled-data entry of the child table
(creating the entry if absent). -/
def sampleChildRowsStep (sampleFor : String → ℕ → List ℚ) (fks : List String)
    (childName : String) (pk : ℕ) (sd : SampledData) : SampledData :=
  if (sampleFor (fks.headD "") pk).length = 0 then sd
  else
    match alookup childName sd with
    | none => sd ++ [(childName, stampRows (fks.headD "") pk (sampleFor (fks.headD "") pk))]
    | some prev =>
      aupdate childName (prev ++ stampRows (fks.headD "") pk (sampleFor (fks.headD "") pk)) sd

/-- The parent-row loop of HMA1._sample_children for one child table. -/
def sampleChildLoop (sampleFor : String → ℕ → List ℚ) (fks : List String)
    (childName : String) : List ℕ → SampledData → SampledData
  | [], sd => sd
  | pk :: pks, sd =>
    sampleChildLoop sampleFor fks childName pks
      (sampleChildRowsStep sampleFor fks childName pk sd)

/-- All stamped batches over a list of parent primary keys, in order. -/
def concatBatches (sampleFor : String → ℕ → List ℚ) (fk : String) : List ℕ → List SampledRow
  | [] => []
  | pk :: pks => stampRows fk pk (sampleFor fk pk) ++ concatBatches sampleFor fk pks

/-- The two consecutive source lines of HMA1._sample_children for one
child table: run the parent-row loop, then read
sampled_data[child_name]; a missing entry models the KeyError that
this uncaught dict access raises. -/
def sampleChildrenLookup (sampleFor : String → ℕ → List ℚ) (fks : List String)
    (childName : String) (pks : List ℕ) (sd : SampledData) :
    Except Unit (SampledData × List SampledRow) :=
  match alookup childName (sampleChildLoop sampleFor fks childName pks sd) with
  | none => .error ()
  | some rows => .ok (sampleChildLoop sampleFor fks childName pks sd, rows)

/- ===== Concrete data used by the witness theorems ===== -/

/-- A likelihood evaluator that fails (with the caught exception kind)
on parent id 1 and succeeds elsewhere. -/
def evalLikC1 : ℕ → Except Unit (List ℚ) := fun p => if p = 1 then .error () else .ok [5, 5]

/-- A group-fit capability with stable parameter names, one of them
scale-suffixed. -/
def fitC5 : List ℚ → Except Unit (List (String × ℚ)) :=
  fun _ => .ok [("a_scale", 1), ("b", 2)]

/-- A group-fit capability that fails exactly on the group holding the
single payload 20. -/
def fitC4 : List ℚ → Except Unit (List (String × ℚ)) :=
  fun g => if g = [20] then .error () else .ok [("p", 1)]

/-- A child-sampling capability yielding two rows for every parent
except parent 2, which yields none. -/
def sampleForC8 : String → ℕ → List ℚ := fun _ pk => if pk = 2 then [] else [10, 11]

/- ===== Shared lemmas about the helpers ===== -/

theorem alookup_graph {α β : Type} [DecidableEq α] (f : α → β) (l : List α) (k : α) :
    alookup k (l.map (fun a => (a, f a))) = if k ∈ l then some (f k) else none := by
  induction l with
  | nil => simp [alookup]
  | cons a as ih =>
    simp only [List.map_cons, alookup, List.mem_cons]
    by_cases h : a = k
    · subst h
      simp
    · rw [if_neg h, ih]
      have h2 : ¬(k = a) := fun hc => h hc.symm
      by_cases hk : k ∈ as
      · simp [hk]
      · simp [hk, h2]

theorem alookup_aupdate_self {α β : Type} [DecidableEq α] (k : α) (v : β) (l : List (α × β))
    (h : (alookup k l).isSome) : alookup k (aupdate k v l) = some v := by
  induction l with
  | nil => simp [alookup] at h
  | cons kv rest ih =>
    obtain ⟨a, b⟩ := kv
    by_cases ha : a = k
    · subst ha
      simp [alookup, aupdate]
    · simp only [alookup, ha, if_false] at h
      simp [alookup, aupdate, ha, ih h]

theorem aupdate_map_fst {α β : Type} [DecidableEq α] (k : α) (v : β) (l : List (α × β)) :
    (aupdate k v l).map Prod.fst = l.map Prod.fst := by
  induction l with
  | nil => simp [aupdate]
  | cons kv rest ih =>
    obtain ⟨a, b⟩ := kv
    by_cases ha : a = k
    · simp [aupdate, ha]
    · simp [aupdate, ha, ih]

theorem alookup_aupdate_ne {α β : Type} [DecidableEq α] (k k2 : α) (v : β) (l : List (α × β))
    (h : k2 ≠ k) : alookup k2 (aupdate k v l) = alookup k2 l := by
  induction l with
  | nil => simp [aupdate]
  | cons kv rest ih =>
    obtain ⟨a, b⟩ := kv
    by_cases ha : a = k
    · subst ha
      simp only [aupdate, if_pos rfl, alookup]
      rw [if_neg (fun hc : a = k2 => h hc.symm), if_neg (fun hc : a = k2 => h hc.symm)]
    · simp only [aupdate, if_neg ha, alookup]
      by_cases ha2 : a = k2
      · rw [if_pos ha2, if_pos ha2]
      · rw [if_neg ha2, if_neg ha2, ih]

theorem alookup_append_new {α β : Type} [DecidableEq α] (k : α) (v : β) (l : List (α × β))
    (h : alookup k l = none) : alookup k (l ++ [(k, v)]) = some v := by
  induction l with
  | nil => simp [alookup]
  | cons kv rest ih =>
    obtain ⟨a, b⟩ := kv
    by_cases ha : a = k
    · simp [alookup, ha] at h
    · simp only [alookup, ha, if_false] at h
      simp [alookup, ha, ih h]

theorem alookup_mem {α β : Type} [DecidableEq α] {k : α} {v : β} {l : List (α × β)}
    (h : alookup k l = some v) : (k, v) ∈ l := by
  induction l with
  | nil => simp [alookup] at h
  | cons kv rest ih =>
    obtain ⟨a, b⟩ := kv
    by_cases ha : a = k
    · subst ha
      simp [alookup] at h
      simp [h]
    · simp only [alookup, ha, if_false] at h
      exact List.mem_cons_of_mem _ (ih h)

theorem alookup_isSome_of_mem {α β : Type} [DecidableEq α] {k : α} {l : List (α × β)}
    (h : k ∈ l.map Prod.fst) : (alookup k l).isSome := by
  induction l with
  | nil => simp at h
  | cons kv rest ih =>
    obtain ⟨a, b⟩ := kv
    by_cases ha : a = k
    · simp [alookup, ha]
    · simp only [List.map_cons, List.mem_cons] at h
      rcases h with h | h
      · exact absurd h.symm ha
      · simp [alookup, ha, ih h]

theorem listMax_eq_none : ∀ (l : List ℚ), listMax l = none ↔ l = [] := by
  intro l
  cases l with
  | nil => simp [listMax]
  | cons a as =>
    simp only [listMax]
    cases listMax as <;> simp

theorem listMax_isUB : ∀ (l : List ℚ) (m : ℚ), listMax l = some m → ∀ x ∈ l, x ≤ m := by
  intro l
  induction l with
  | nil => intro m hm; simp [listMax] at hm
  | cons a as ih =>
    intro m hm x hx
    cases hs : listMax as with
    | none =>
      have has : as = [] := (listMax_eq_none as).mp hs
      subst has
      have hm2 : a = m := by simpa [listMax] using hm
      have hx2 : x = a := by simpa using hx
      exact le_of_eq (hx2.trans hm2)
    | some m2 =>
      have hm2 : max a m2 = m := by simpa [listMax, hs] using hm
      rw [← hm2]
      rcases List.mem_cons.mp hx with hxa | hxs
      · rw [hxa]; exact le_max_left a m2
      · exact le_trans (ih m2 hs x hxs) (le_max_right a m2)

theorem listMax_mem : ∀ (l : List ℚ) (m : ℚ), listMax l = some m → m ∈ l := by
  intro l
  induction l with
  | nil => intro m hm; simp [listMax] at hm
  | cons a as ih =>
    intro m hm
    cases hs : listMax as with
    | none =>
      have has : as = [] := (listMax_eq_none as).mp hs
      subst has
      have hm2 : a = m := by simpa [listMax] using hm
      simp [← hm2]
    | some m2 =>
      have hm2 : max a m2 = m := by simpa [listMax, hs] using hm
      rw [← hm2]
      rcases max_choice a m2 with hc | hc
      · rw [hc]; exact List.mem_cons_self a as
      · rw [hc]; exact List.mem_cons_of_mem _ (ih m2 hs)

theorem listMax_of_ne_nil : ∀ (l : List ℚ), l ≠ [] → ∃ m, listMax l = some m := by
  intro l hl
  cases l with
  | nil => exact absurd rfl hl
  | cons a as =>
    cases hs : listMax as with
    | none => exact ⟨a, by simp [listMax, hs]⟩
    | some m2 => exact ⟨max a m2, by simp [listMax, hs]⟩

theorem uniqueKeep_subset : ∀ (l seen : List ℕ) (v : ℕ), v ∈ uniqueKeep l seen → v ∈ l := by
  intro l
  induction l with
  | nil => intro seen v h; simp [uniqueKeep] at h
  | cons a as ih =>
    intro seen v h
    by_cases ha : a ∈ seen
    · simp only [uniqueKeep, if_pos ha] at h
      exact List.mem_cons_of_mem _ (ih _ v h)
    · simp only [uniqueKeep, if_neg ha] at h
      rcases List.mem_cons.mp h with hv | hv
      · exact hv ▸ List.mem_cons_self _ _
      · exact List.mem_cons_of_mem _ (ih _ v hv)

theorem listIsPfx_iff {α : Type} [DecidableEq α] :
    ∀ (p l : List α), listIsPfx p l = true ↔ ∃ t, l = p ++ t := by
  intro p
  induction p with
  | nil => intro l; simp [listIsPfx]
  | cons a as ih =>
    intro l
    cases l with
    | nil =>
      simp [listIsPfx]
    | cons b bs =>
      simp only [listIsPfx]
      by_cases hab : a = b
      · subst hab
        rw [if_pos rfl, ih]
        constructor
        · rintro ⟨t, ht⟩
          exact ⟨t, by rw [ht]; rfl⟩
        · rintro ⟨t, ht⟩
          rw [List.cons_append] at ht
          injection ht with h1 h2
          exact ⟨t, h2⟩
      · rw [if_neg hab]
        constructor
        · intro h; exact absurd h (by simp)
        · rintro ⟨t, ht⟩
          rw [List.cons_append] at ht
          injection ht with h1 h2
          exact absurd h1 (fun hc => hab hc.symm)

theorem strStartsWith_iff (s pre : String) :
    strStartsWith s pre = true ↔ ∃ t, s.data = pre.data ++ t := by
  exact listIsPfx_iff pre.data s.data

theorem string_data_inj {s t : String} (h : s.data = t.data) : s = t := by
  cases s
  cases t
  exact congrArg String.mk h

theorem strDrop_pfx (pre : String) (t : List Char) (s : String)
    (h : s.data = pre.data ++ t) : strDrop s (strLen pre) = ⟨t⟩ := by
  simp [strDrop, strLen, h, List.drop_left]

theorem string_data_append (a b : String) : (a ++ b).data = a.data ++ b.data := by
  cases a
  cases b
  rfl

theorem strip_inj {pre s1 : String} {t : List Char} (h : s1.data = pre.data ++ t) :
    ∀ s2 : String, (⟨t⟩ : String) = s2 ↔ s1 = pre ++ s2 := by
  intro s2
  constructor
  · intro he
    apply string_data_inj
    rw [h, string_data_append, ← he]
  · intro he
    apply string_data_inj
    have h2 : s1.data = (pre ++ s2).data := congrArg String.data he
    rw [string_data_append, h] at h2
    exact List.append_cancel_left h2

theorem mem_aupdate {α β : Type} [DecidableEq α] (k : α) (v : β) :
    ∀ (l : List (α × β)) (kv : α × β), kv ∈ aupdate k v l → kv ∈ l ∨ kv = (k, v) := by
  intro l
  induction l with
  | nil => intro kv h; simp [aupdate] at h
  | cons ab rest ih =>
    intro kv h
    obtain ⟨a, b⟩ := ab
    by_cases ha : a = k
    · subst ha
      simp only [aupdate, if_pos rfl] at h
      rcases List.mem_cons.mp h with h | h
      · right; rw [h]
      · left; exact List.mem_cons_of_mem _ h
    · simp only [aupdate, if_neg ha] at h
      rcases List.mem_cons.mp h with h | h
      · left; rw [h]; exact List.mem_cons_self _ _
      · rcases ih kv h with h2 | h2
        · left; exact List.mem_cons_of_mem _ h2
        · right; exact h2

theorem numRowsKey_startsWith (tableName fk : String) :
    strStartsWith (numRowsKey tableName fk) (paramPfx tableName fk) = true := by
  rw [strStartsWith_iff]
  refine ⟨"num_rows".data, ?_⟩
  unfold numRowsKey
  rw [string_data_append]

theorem alookup_strip_numrows (tableName fk : String) :
    ∀ (keys : List (String × ℚ)),
    (∀ kv ∈ keys, strStartsWith kv.1 (paramPfx tableName fk) = true) →
    alookup "num_rows"
      (keys.map (fun kv => (strDrop kv.1 (strLen (paramPfx tableName fk)), kv.2)))
      = alookup (numRowsKey tableName fk) keys := by
  intro keys
  induction keys with
  | nil => intro hall; rfl
  | cons kv rest ih =>
    intro hall
    obtain ⟨a, b⟩ := kv
    have hstart := hall (a, b) (List.mem_cons_self _ _)
    obtain ⟨t, ht⟩ := (strStartsWith_iff a (paramPfx tableName fk)).mp hstart
    have hdrop : strDrop a (strLen (paramPfx tableName fk)) = ⟨t⟩ := strDrop_pfx _ t a ht
    have hcond := strip_inj ht "num_rows"
    simp only [List.map_cons, alookup, hdrop]
    by_cases hc : a = numRowsKey tableName fk
    · rw [if_pos (hcond.mpr hc), if_pos hc]
    · rw [if_neg (fun h => hc (hcond.mp h)), if_neg hc,
        ih (fun kv2 hkv2 => hall kv2 (List.mem_cons_of_mem _ hkv2))]

/- ===== Claim C2: num_rows clipping to the fit-time maximum ===== -/

/-- Claim C2: whenever the parameter mapping extracted from a sampled
parent row for a (child table, foreign key) pair contains a num_rows
value, that value is at most the fit-time maximum recorded in the
max-child-rows registry for that num_rows extension column. -/
theorem claim_C2 (maxChildRows parentRow : List (String × ℚ)) (tableName fk : String)
    (m : ℚ) (out : List (String × ℚ)) (v : ℚ)
    (hreg : alookup (numRowsKey tableName fk) maxChildRows = some m)
    (hok : extractParameters maxChildRows parentRow tableName fk = .ok out)
    (hv : alookup "num_rows" out = some v) : v ≤ m := by
  have hall : ∀ kv ∈ extractKeys parentRow tableName fk,
      strStartsWith kv.1 (paramPfx tableName fk) = true :=
    fun kv hkv => (List.mem_filter.mp hkv).2
  unfold extractParameters at hok
  cases hnum : alookup (numRowsKey tableName fk) (extractKeys parentRow tableName fk) with
  | none =>
    rw [hnum] at hok
    have hout := Except.ok.inj hok
    rw [← hout, alookup_strip_numrows tableName fk _ hall, hnum] at hv
    cases hv
  | some w =>
    rw [hnum, hreg] at hok
    have hout := Except.ok.inj hok
    have hall2 : ∀ kv ∈ aupdate (numRowsKey tableName fk) (min m w)
        (extractKeys parentRow tableName fk),
        strStartsWith kv.1 (paramPfx tableName fk) = true := by
      intro kv hkv
      rcases mem_aupdate _ _ _ kv hkv with h | h
      · exact hall kv h
      · rw [h]
        exact numRowsKey_startsWith tableName fk
    rw [← hout, alookup_strip_numrows tableName fk _ hall2,
      alookup_aupdate_self _ _ _ (by simp [hnum])] at hv
    have hveq := Option.some.inj hv
    rw [← hveq]
    exact min_le_left m w

/-- Witness for claim C2 at a concrete parent row and registry. -/
theorem claim_C2_witness : (5 : ℚ) ≤ 9 :=
  claim_C2 [("__t__k__num_rows", 9)]
    [("__t__k__num_rows", 5), ("__t__k__a", 1), ("other", 3)] "t" "k" 9
    [("num_rows", 5), ("a", 1)] 5 rfl rfl rfl

/- ===== Claim C1: the likelihood fallback ladder ===== -/

theorem fillLikelihoods_eq_specFillLadder (liks : List (Option ℚ)) (numRows : List ℚ) :
    fillLikelihoods liks numRows = specFillLadder liks numRows := by
  unfold fillLikelihoods specFillLadder
  have hzip : (fun (l : Option ℚ) (e : ℚ) => l.getD e)
      = (fun (l : Option ℚ) (e : ℚ) =>
        match l with
        | none => e
        | some v => v) := by
    funext l e
    cases l <;> rfl
  by_cases h1 : (liks.all fun x => decide (x = some 0)) = true
  · rw [if_pos h1, if_pos h1]
  · rw [if_neg h1, if_neg h1]
    by_cases hempty : liks.filterMap id = []
    · have hm : seriesMean liks = none := by simp [seriesMean, hempty]
      rw [if_pos (Or.inl hm), if_pos (Or.inl hempty), hzip]
    · have hlen : (liks.filterMap id).length ≠ 0 :=
        fun h => hempty (List.length_eq_zero.mp h)
      have hmean : seriesMean liks
          = some ((liks.filterMap id).sum / ((liks.filterMap id).length : ℚ)) := by
        simp [seriesMean, hlen]
      by_cases hsum : (liks.filterMap id).sum = 0
      · have hm0 : seriesMean liks = some 0 := by rw [hmean, hsum]; simp
        rw [if_pos (Or.inr hm0), if_pos (Or.inr hsum), hzip]
      · have hne : ¬(seriesMean liks = none ∨ seriesMean liks = some 0) := by
          rw [hmean]
          rintro (h | h)
          · cases h
          · have h2 := Option.some.inj h
            rw [div_eq_zero_iff] at h2
            rcases h2 with h2 | h2
            · exact hsum h2
            · exact hlen (by exact_mod_cast h2)
        have hne2 : ¬(liks.filterMap id = [] ∨ (liks.filterMap id).sum = 0) := by
          rintro (h | h)
          · exact hempty h
          · exact hsum h
        rw [if_neg hne, if_neg hne2]
        have hfun : (fun l : Option ℚ => l.getD ((seriesMean liks).getD 0))
            = (fun l : Option ℚ =>
              match l with
              | none => (liks.filterMap id).sum / ((liks.filterMap id).length : ℚ)
              | some v => v) := by
          funext l
          cases l <;> simp [hmean]
        rw [hfun]

theorem findParentIdWeights_eq_spec (liks : List (Option ℚ)) (numRows : List ℚ) :
    findParentIdWeights liks numRows = specLadderWeights liks numRows := by
  unfold findParentIdWeights normalizeWeights specLadderWeights
  rw [fillLikelihoods_eq_specFillLadder]

/-- Claim C1: for every likelihood series and expected-row-count
series over the same candidate parents, the weight vector handed to
the random draw follows exactly the fallback ladder stated by the
specification (all-zero likelihoods fall back to expected row counts;
an undefined or zero mean fills undefined entries with expected row
counts, keeping zeros; otherwise only undefined entries are filled
with the mean of the valid likelihoods; a zero-sum weight vector falls
back to uniform), and a likelihood-evaluation failure of the caught
kinds enters the ladder as an undefined (all-missing) column of the
likelihood frame rather than being raised. -/
theorem claim_C1 :
    (∀ (liks : List (Option ℚ)) (numRows : List ℚ),
      findParentIdWeights liks numRows = specLadderWeights liks numRows) ∧
    (∀ (evalLik : ℕ → Except Unit (List ℚ)) (numChild : ℕ) (parents : List ℕ) (p : ℕ),
      p ∈ parents → evalLik p = Except.error () →
      alookup p (getLikelihoods evalLik numChild parents)
        = some (List.replicate numChild none)) := by
  constructor
  · exact findParentIdWeights_eq_spec
  · intro evalLik numChild parents p hp herr
    unfold getLikelihoods
    rw [alookup_graph, if_pos hp]
    unfold getLikelihoodColumn
    rw [herr]

/-- Witness for claim C1 at a concrete failing evaluator. -/
theorem claim_C1_witness :
    alookup 1 (getLikelihoods evalLikC1 2 [1, 4]) = some (List.replicate 2 none) :=
  claim_C1.2 evalLikC1 2 [1, 4] 1 (by decide) rfl

/- ===== Claim C3: root-table sampling row counts ===== -/

/-- Counterexample to claim C3 as stated: requesting zero rows does
not yield zero rows.  The python fallback num_rows or model num_rows
in HMA1._sample_rows treats a requested count of 0 as falsy, so
sampling a parentless table with num_rows = 0 yields the fit-time row
count (3 here) instead of 0 rows, with a sampler that returns exactly
the requested number of rows. -/
theorem claim_C3_counterexample :
    (sampleTable (fun n => List.replicate n 0) 3 3 (some 0)).length = 3 ∧ (3 : ℕ) ≠ 0 := by
  constructor
  · rfl
  · decide

/-- Claim C3 as amended: for every table with no parent and every
nonzero requested row count N, sampling with num_rows = N yields
exactly N rows, provided the table model capability returns exactly
the requested number of rows; when no count is given and the fit-time
row count is nonzero, that fit-time row count is used. -/
theorem claim_C3 (sample : ℕ → List ℚ) (modelNumRows tableSize : ℕ)
    (hs : ∀ n, (sample n).length = n) :
    (∀ N, N ≠ 0 → (sampleTable sample modelNumRows tableSize (some N)).length = N) ∧
    (tableSize ≠ 0 → (sampleTable sample modelNumRows tableSize none).length = tableSize) := by
  constructor
  · intro N hN
    simp [sampleTable, sampleRowsPk, pyOrNat, hN, hs]
  · intro hts
    simp [sampleTable, sampleRowsPk, pyOrNat, hts, hs]

/-- Witness for the amended claim C3 at a concrete sampler. -/
theorem claim_C3_witness :
    (sampleTable (fun n => List.replicate n 0) 3 3 (some 2)).length = 2 ∧
    (sampleTable (fun n => List.replicate n 0) 3 3 none).length = 3 := by
  have h := claim_C3 (fun n => List.replicate n 0) 3 3 (fun n => by simp)
  exact ⟨h.1 2 (by decide), h.2 (by decide)⟩

/- ===== Claim C4: failed groups are absent from the extension ===== -/

theorem getExtensionGo_index (fit : List ℚ → Except Unit (List (String × ℚ)))
    (tableName fk : String) (table : List (ℕ × ℚ)) :
    ∀ (vs : List ℕ) (sc : Option (List String)),
    (getExtensionGo fit tableName fk table vs sc).map Prod.fst
      = vs.filter (fun v => exceptOk (fit (groupOf table v))) := by
  intro vs
  induction vs with
  | nil => intro sc; rfl
  | cons v rest ih =>
    intro sc
    cases hf : fit (groupOf table v) with
    | error e =>
      simp only [getExtensionGo, hf]
      rw [ih, List.filter_cons]
      simp [exceptOk, hf]
    | ok ps =>
      simp only [getExtensionGo, hf]
      rw [List.map_cons, ih, List.filter_cons]
      simp [exceptOk, hf]

/-- Claim C4: extension-row generation is a partial function of the
foreign key value; the extension index is exactly the distinct foreign
key values present in the child data whose group fit succeeded, so a
group whose fit raised contributes no row (its value is absent from
the index), a foreign key value with zero matching child rows is
absent, and no null-but-zero-weight row is produced for a failed
group. -/
theorem claim_C4 (fit : List ℚ → Except Unit (List (String × ℚ)))
    (tableName fk : String) (table : List (ℕ × ℚ)) :
    ((getExtension fit tableName fk table).map Prod.fst
      = (uniqueKeep (table.map Prod.fst) []).filter
          (fun v => exceptOk (fit (groupOf table v)))) ∧
    (∀ v, v ∈ (getExtension fit tableName fk table).map Prod.fst →
      v ∈ table.map Prod.fst ∧ exceptOk (fit (groupOf table v)) = true) := by
  constructor
  · exact getExtensionGo_index fit tableName fk table _ none
  · intro v hv
    unfold getExtension at hv
    rw [getExtensionGo_index] at hv
    have hmem := List.mem_filter.mp hv
    exact ⟨uniqueKeep_subset _ _ v hmem.1, hmem.2⟩

/-- Witness for claim C4: parent value 2 has a single child row whose
group fit raises, so it is absent from the extension index. -/
theorem claim_C4_witness :
    (getExtension fitC4 "c" "k" [(1, 10), (2, 20), (1, 11)]).map Prod.fst = [1] ∧
    (1 ∈ ([(1, 10), (2, 20), (1, 11)] : List (ℕ × ℚ)).map Prod.fst ∧
      exceptOk (fitC4 (groupOf [(1, 10), (2, 20), (1, 11)] 1)) = true) := by
  have h := claim_C4 fitC4 "c" "k" [(1, 10), (2, 20), (1, 11)]
  refine ⟨?_, h.2 1 ?_⟩
  · rw [h.1]; rfl
  · rw [h.1]; decide

/- ===== Claim C5: singleton groups null their scale parameters ===== -/

theorem scaleFilter_nsRow_eq (tableName fk : String) (p1 p2 : List (String × ℚ))
    (h : p1.map Prod.fst = p2.map Prod.fst) :
    scaleFilter (nsRow tableName fk p1) = scaleFilter (nsRow tableName fk p2) := by
  have e1 : ∀ p : List (String × ℚ), (nsRow tableName fk p).map Prod.fst
      = (p.map Prod.fst).map (fun s => paramPfx tableName fk ++ s) := by
    intro p
    unfold nsRow
    rw [List.map_map, List.map_map]
    rfl
  unfold scaleFilter
  rw [e1, e1, h]

theorem nullScales_scale_none (row : List (String × Option ℚ)) :
    ∀ nm val, (nm, val) ∈ nullScales (scaleFilter row) row →
      strEndsWith nm "scale" = true → val = none := by
  intro nm val hmem hends
  unfold nullScales at hmem
  rcases List.mem_map.mp hmem with ⟨kv, hkv, heq⟩
  by_cases hin : kv.1 ∈ scaleFilter row
  · rw [if_pos hin] at heq
    have h2 := (Prod.mk.injEq _ _ _ _).mp heq
    exact h2.2.symm
  · rw [if_neg hin] at heq
    exfalso
    apply hin
    unfold scaleFilter
    refine List.mem_filter.mpr ⟨List.mem_map.mpr ⟨kv, hkv, rfl⟩, ?_⟩
    rw [heq]
    exact hends

theorem getExtensionGo_scale (fit : List ℚ → Except Unit (List (String × ℚ)))
    (tableName fk : String) (table : List (ℕ × ℚ))
    (hst : ∀ g1 g2 p1 p2, fit g1 = .ok p1 → fit g2 = .ok p2 →
      p1.map Prod.fst = p2.map Prod.fst) :
    ∀ (vs : List ℕ) (sc : Option (List String)),
    (sc = none ∨ ∃ g p, fit g = .ok p ∧ sc = some (scaleFilter (nsRow tableName fk p))) →
    ∀ v row, (v, row) ∈ getExtensionGo fit tableName fk table vs sc →
      (groupOf table v).length = 1 →
      ∀ nm val, (nm, val) ∈ row → strEndsWith nm "scale" = true → val = none := by
  intro vs
  induction vs with
  | nil =>
    intro sc hsc v row hmem
    simp [getExtensionGo] at hmem
  | cons v0 rest ih =>
    intro sc hsc v row hmem hlen nm val hnm hends
    cases hf : fit (groupOf table v0) with
    | error e =>
      simp only [getExtensionGo, hf] at hmem
      exact ih sc hsc v row hmem hlen nm val hnm hends
    | ok ps =>
      simp only [getExtensionGo, hf] at hmem
      have hscEq : sc.getD (scaleFilter (nsRow tableName fk ps))
          = scaleFilter (nsRow tableName fk ps) := by
        rcases hsc with h | ⟨g, p, hgp, h⟩
        · rw [h]
          rfl
        · rw [h]
          simp only [Option.getD]
          exact scaleFilter_nsRow_eq tableName fk p ps (hst g _ p ps hgp hf)
      rcases List.mem_cons.mp hmem with h | h
      · have hv0 : v = v0 := congrArg Prod.fst h
        subst hv0
        have hrow := congrArg Prod.snd h
        simp only at hrow
        rw [if_pos hlen, hscEq] at hrow
        rw [hrow] at hnm
        exact nullScales_scale_none (nsRow tableName fk ps) nm val hnm hends
      · exact ih _ (Or.inr ⟨groupOf table v0, ps, hf, by rw [hscEq]⟩)
          v row h hlen nm val hnm hends

/-- Claim C5: for every successfully fit group with exactly one child
row, every parameter of the stored extension row whose namespaced name
ends with the variance-marker suffix scale holds a missing value. -/
theorem claim_C5 (fit : List ℚ → Except Unit (List (String × ℚ)))
    (tableName fk : String) (table : List (ℕ × ℚ))
    (hst : ∀ g1 g2 p1 p2, fit g1 = .ok p1 → fit g2 = .ok p2 →
      p1.map Prod.fst = p2.map Prod.fst) :
    ∀ v row, (v, row) ∈ getExtension fit tableName fk table →
      (groupOf table v).length = 1 →
      (∀ nm val, (nm, val) ∈ row → strEndsWith nm "scale" = true → val = none) ∧
      (∀ nm, nm ∈ row.map Prod.fst → strEndsWith nm "scale" = true →
        alookup nm row = some none) := by
  intro v row hmem hlen
  have hmain := getExtensionGo_scale fit tableName fk table hst _ none (Or.inl rfl)
    v row hmem hlen
  refine ⟨hmain, ?_⟩
  intro nm hnm hends
  cases hf : alookup nm row with
  | none =>
    have hsome := alookup_isSome_of_mem hnm
    rw [hf] at hsome
    cases hsome
  | some val =>
    have hval := hmain nm val (alookup_mem hf) hends
    rw [hval]

/-- Witness for claim C5 at a concrete singleton group. -/
theorem claim_C5_witness :
    alookup "__c__k__a_scale"
      [("__c__k__a_scale", (none : Option ℚ)), ("__c__k__b", some 2)] = some none := by
  have hst : ∀ g1 g2 p1 p2, fitC5 g1 = .ok p1 → fitC5 g2 = .ok p2 →
      p1.map Prod.fst = p2.map Prod.fst := by
    intro g1 g2 p1 p2 h1 h2
    simp only [fitC5, Except.ok.injEq] at h1 h2
    rw [← h1, ← h2]
  have h := claim_C5 fitC5 "c" "k" [(7, 3)] hst 7
    [("__c__k__a_scale", none), ("__c__k__b", some 2)] (by decide) (by decide)
  exact h.2 "__c__k__a_scale" (by decide) (by decide)

/- ===== Claim C6: num_rows fillna and the max registry ===== -/

theorem extendNumRows_fst (parentIndex : List ℕ) (ext : List (ℕ × List (String × Option ℚ)))
    (key : String) :
    (extendNumRows parentIndex ext key).1
      = parentIndex.map (fun pk =>
          (pk, ((alookup pk ext).bind (fun row => (alookup key row).join)).getD 0)) := by
  unfold extendNumRows fillnaCol mergeNumRows
  rw [List.map_map]
  rfl

/-- Claim C6: after the left join of the parent table with a child
extension frame, every parent key missing from the extension index
gets num_rows value 0 (and present keys keep their value), and the
maximum of the filled num_rows column over all fit-time parent rows is
recorded in the max-child-rows registry under the namespaced column
name. -/
theorem claim_C6 (parentIndex : List ℕ) (ext : List (ℕ × List (String × Option ℚ)))
    (tableName fk : String) (extFor : String → List (ℕ × List (String × Option ℚ))) :
    (∀ pk, pk ∈ parentIndex → alookup pk ext = none →
      alookup pk (extendNumRows parentIndex ext (numRowsKey tableName fk)).1 = some 0) ∧
    (∀ pk row v, pk ∈ parentIndex → alookup pk ext = some row →
      (alookup (numRowsKey tableName fk) row).join = some v →
      alookup pk (extendNumRows parentIndex ext (numRowsKey tableName fk)).1 = some v) ∧
    (parentIndex ≠ [] →
      ∃ m, (extendNumRows parentIndex ext (numRowsKey tableName fk)).2 = some m ∧
        (∀ x ∈ ((extendNumRows parentIndex ext (numRowsKey tableName fk)).1).map Prod.snd,
          x ≤ m) ∧
        m ∈ ((extendNumRows parentIndex ext (numRowsKey tableName fk)).1).map Prod.snd) ∧
    (∀ fks, fk ∈ fks →
      (numRowsKey tableName fk,
        (extendNumRows parentIndex (extFor fk) (numRowsKey tableName fk)).2)
        ∈ extendTableRegistry tableName fks parentIndex extFor) := by
  refine ⟨?_, ?_, ?_, ?_⟩
  · intro pk hpk hnone
    rw [extendNumRows_fst, alookup_graph, if_pos hpk, hnone]
    rfl
  · intro pk row v hpk hsome hjoin
    rw [extendNumRows_fst, alookup_graph, if_pos hpk, hsome]
    simp only [Option.some_bind]
    rw [hjoin]
    rfl
  · intro hne
    have hfne : ((extendNumRows parentIndex ext (numRowsKey tableName fk)).1).map Prod.snd
        ≠ [] := by
      rw [extendNumRows_fst, List.map_map]
      simpa using hne
    obtain ⟨m, hm⟩ := listMax_of_ne_nil _ hfne
    refine ⟨m, hm, listMax_isUB _ m hm, listMax_mem _ m hm⟩
  · intro fks hfk
    unfold extendTableRegistry
    exact List.mem_map.mpr ⟨fk, hfk, rfl⟩

/-- Witness for claim C6: parent key 2 has no extension row and gets
num_rows 0, parent key 1 keeps its extension value 5, and the column
maximum is 5. -/
theorem claim_C6_witness :
    alookup 2 (extendNumRows [1, 2] [(1, [("__c__k__num_rows", some 5)])]
      (numRowsKey "c" "k")).1 = some 0 ∧
    alookup 1 (extendNumRows [1, 2] [(1, [("__c__k__num_rows", some 5)])]
      (numRowsKey "c" "k")).1 = some 5 := by
  have h := claim_C6 [1, 2] [(1, [("__c__k__num_rows", some 5)])] "c" "k" (fun _ => [])
  exact ⟨h.1 2 (by decide) rfl, h.2.1 1 [("__c__k__num_rows", some 5)] 5 (by decide) rfl rfl⟩

/- ===== Claim C7: finalization does not drop rows ===== -/

theorem applyDtypes_ok :
    ∀ (dts : List (String × Dtype)) (table t2 : List (String × List (Option ℚ))),
    (dts.map Prod.fst).Nodup →
    applyDtypes dts table = .ok t2 →
    (t2.map Prod.fst = table.map Prod.fst) ∧
    (∀ n d, (n, d) ∈ dts → ∃ col, alookup n table = some col ∧
      alookup n t2 = some (castColumnStep d col)) ∧
    (∀ n, n ∉ dts.map Prod.fst → alookup n t2 = alookup n table) := by
  intro dts
  induction dts with
  | nil =>
    intro table t2 hnd hok
    have ht := Except.ok.inj hok
    subst ht
    exact ⟨rfl, fun n d h => absurd h (List.not_mem_nil _), fun n h => rfl⟩
  | cons nd rest ih =>
    intro table t2 hnd hok
    obtain ⟨n, d⟩ := nd
    simp only [List.map_cons, List.nodup_cons] at hnd
    cases hl : alookup n table with
    | none =>
      unfold applyDtypes at hok
      rw [hl] at hok
      cases hok
    | some col =>
      unfold applyDtypes at hok
      rw [hl] at hok
      have hrec := ih (aupdate n (castColumnStep d col) table) t2 hnd.2 hok
      have hfst : t2.map Prod.fst = table.map Prod.fst := by
        rw [hrec.1, aupdate_map_fst]
      refine ⟨hfst, ?_, ?_⟩
      · intro n2 d2 hmem
        rcases List.mem_cons.mp hmem with h | h
        · have hn2 : n2 = n := congrArg Prod.fst h
          have hd2 : d2 = d := congrArg Prod.snd h
          subst hn2
          subst hd2
          refine ⟨col, hl, ?_⟩
          rw [hrec.2.2 n2 hnd.1,
            alookup_aupdate_self _ _ _ (by simp [hl])]
        · have hn2ne : n2 ≠ n := by
            intro hc
            exact hnd.1 (hc ▸ List.mem_map.mpr ⟨(n2, d2), h, rfl⟩)
          obtain ⟨col2, hcol2, ht2⟩ := hrec.2.1 n2 d2 h
          rw [alookup_aupdate_ne _ _ _ _ hn2ne] at hcol2
          exact ⟨col2, hcol2, ht2⟩
      · intro n2 hnot
        simp only [List.map_cons, List.mem_cons] at hnot
        push_neg at hnot
        rw [hrec.2.2 n2 hnot.2, alookup_aupdate_ne _ _ _ _ hnot.1]

theorem selectColumns_ok :
    ∀ (dts : List (String × Dtype)) (t2 out : List (String × List (Option ℚ))),
    (dts.map Prod.fst).Nodup →
    selectColumns dts t2 = .ok out →
    (out.map Prod.fst = dts.map Prod.fst) ∧
    (∀ n d, (n, d) ∈ dts → alookup n out = alookup n t2) := by
  intro dts
  induction dts with
  | nil =>
    intro t2 out hnd hok
    have ht := Except.ok.inj hok
    subst ht
    exact ⟨rfl, fun n d h => absurd h (List.not_mem_nil _)⟩
  | cons nd rest ih =>
    intro t2 out hnd hok
    obtain ⟨n, d⟩ := nd
    simp only [List.map_cons, List.nodup_cons] at hnd
    unfold selectColumns at hok
    cases hl : alookup n t2 with
    | none => rw [hl] at hok; cases hok
    | some col =>
      rw [hl] at hok
      cases hsel : selectColumns rest t2 with
      | error e => rw [hsel] at hok; cases hok
      | ok outRest =>
        rw [hsel] at hok
        have hout := Except.ok.inj hok
        subst hout
        have hrec := ih t2 outRest hnd.2 hsel
        refine ⟨by simp [hrec.1], ?_⟩
        intro n2 d2 hmem
        rcases List.mem_cons.mp hmem with h | h
        · have hn2 : n2 = n := congrArg Prod.fst h
          subst hn2
          simp [alookup, hl]
        · have hn2ne : n2 ≠ n := by
            intro hc
            exact hnd.1 (hc ▸ List.mem_map.mpr ⟨(n2, d2), h, rfl⟩)
          simp only [alookup, if_neg (fun hc : n = n2 => hn2ne hc.symm)]
          exact hrec.2 n2 d2 h

/-- Counterexample to claim C7 as stated: finalization does not drop
rows with missing values.  The source line reassigns
table_rows[name].dropna().astype(dtype) back into the dataframe, and
the assignment realigns on the row index, so the dropped entries come
back as missing values: on a one-column table with values 1 and
missing, the finalized output still contains the missing entry in a
schema-declared column, which the claimed row-dropping forbids. -/
theorem claim_C7_counterexample :
    (match finalizeTable [("a", Dtype.floatType)] [("a", [some 1, none])] with
      | .ok out => out.any (fun c => c.2.any (fun x => x.isNone))
      | .error _ => false) = true := by
  rfl

/-- Claim C7 as amended: finalization keeps every row of every sampled
table; for each schema-declared column, each missing value stays
missing and each present value is cast to the declared type, and the
returned table has exactly the schema-declared columns in declared
order. -/
theorem claim_C7 (dts : List (String × Dtype)) (table out : List (String × List (Option ℚ)))
    (hnd : (dts.map Prod.fst).Nodup)
    (hok : finalizeTable dts table = .ok out) :
    (out.map Prod.fst = dts.map Prod.fst) ∧
    (∀ n d, (n, d) ∈ dts → ∃ col, alookup n table = some col ∧
      alookup n out = some (col.map (Option.map (castVal d))) ∧
      (col.map (Option.map (castVal d))).length = col.length) := by
  unfold finalizeTable at hok
  cases happ : applyDtypes dts table with
  | error e => rw [happ] at hok; cases hok
  | ok t2 =>
    rw [happ] at hok
    have ha := applyDtypes_ok dts table t2 hnd happ
    have hs := selectColumns_ok dts t2 out hnd hok
    refine ⟨hs.1, ?_⟩
    intro n d hmem
    obtain ⟨col, hcol, ht2⟩ := ha.2.1 n d hmem
    refine ⟨col, hcol, ?_, List.length_map _ _⟩
    rw [hs.2 n d hmem, ht2]
    rfl

/-- Witness for the amended claim C7 at a concrete one-column table
holding a missing value. -/
theorem claim_C7_witness :
    ([("a", [some (1:ℚ), none])] : List (String × List (Option ℚ))).map Prod.fst
      = ([("a", Dtype.floatType)] : List (String × Dtype)).map Prod.fst :=
  (claim_C7 [("a", Dtype.floatType)] [("a", [some 1, none])] [("a", [some 1, none])]
    (by decide) rfl).1

/- ===== Claims C8 and C9: the child-sampling loop ===== -/

theorem sampleChildLoop_present (sf : String → ℕ → List ℚ) (fks : List String)
    (childName : String) :
    ∀ (pks : List ℕ) (sd : SampledData) (cur : List SampledRow),
    alookup childName sd = some cur →
    alookup childName (sampleChildLoop sf fks childName pks sd)
      = some (cur ++ concatBatches sf (fks.headD "") pks) := by
  intro pks
  induction pks with
  | nil =>
    intro sd cur h
    simpa [sampleChildLoop, concatBatches] using h
  | cons pk rest ih =>
    intro sd cur h
    unfold sampleChildLoop sampleChildRowsStep
    by_cases hz : (sf (fks.headD "") pk).length = 0
    · rw [if_pos hz]
      have hrows : sf (fks.headD "") pk = [] := List.length_eq_zero.mp hz
      rw [ih sd cur h, concatBatches, hrows]
      simp [stampRows]
    · rw [if_neg hz, h]
      rw [ih _ _ (alookup_aupdate_self _ _ _ (by simp [h]))]
      rw [concatBatches]
      simp [List.append_assoc]

theorem sampleChildLoop_absent (sf : String → ℕ → List ℚ) (fks : List String)
    (childName : String) :
    ∀ (pks : List ℕ) (sd : SampledData), alookup childName sd = none →
    alookup childName (sampleChildLoop sf fks childName pks sd)
      = if concatBatches sf (fks.headD "") pks = [] then none
        else some (concatBatches sf (fks.headD "") pks) := by
  intro pks
  induction pks with
  | nil =>
    intro sd h
    simp [sampleChildLoop, concatBatches, h]
  | cons pk rest ih =>
    intro sd h
    unfold sampleChildLoop sampleChildRowsStep
    by_cases hz : (sf (fks.headD "") pk).length = 0
    · rw [if_pos hz]
      have hrows : sf (fks.headD "") pk = [] := List.length_eq_zero.mp hz
      rw [ih sd h, concatBatches, hrows]
      simp [stampRows]
    · rw [if_neg hz, h]
      have hstampne : stampRows (fks.headD "") pk (sf (fks.headD "") pk) ≠ [] := by
        intro hc
        exact hz (by rw [List.map_eq_nil_iff.mp hc]; rfl)
      rw [sampleChildLoop_present sf fks childName rest _ _
        (alookup_append_new childName _ sd h)]
      rw [concatBatches]
      rw [if_neg (fun hc => hstampne (List.append_eq_nil.mp hc).1)]

theorem concatBatches_eq_nil (sf : String → ℕ → List ℚ) (fk : String) :
    ∀ pks, concatBatches sf fk pks = [] ↔ ∀ pk ∈ pks, sf fk pk = [] := by
  intro pks
  induction pks with
  | nil => simp [concatBatches]
  | cons pk rest ih =>
    constructor
    · intro h
      have hsplit := List.append_eq_nil.mp h
      intro x hx
      rcases List.mem_cons.mp hx with hx | hx
      · rw [hx]
        exact List.map_eq_nil_iff.mp hsplit.1
      · exact ih.mp hsplit.2 x hx
    · intro h
      have h1 : sf fk pk = [] := h pk (List.mem_cons_self _ _)
      show stampRows fk pk (sf fk pk) ++ concatBatches sf fk rest = []
      rw [h1, ih.mpr (fun x hx => h x (List.mem_cons_of_mem _ hx))]
      rfl

theorem mem_concatBatches (sf : String → ℕ → List ℚ) (fk : String) :
    ∀ (pks : List ℕ) (r : SampledRow), r ∈ concatBatches sf fk pks →
      r.2.2 ∈ pks ∧ r.2.1 = fk ∧ r.1 ∈ sf fk r.2.2 := by
  intro pks
  induction pks with
  | nil => intro r h; simp [concatBatches] at h
  | cons pk rest ih =>
    intro r h
    rcases List.mem_append.mp h with h | h
    · rcases List.mem_map.mp h with ⟨x, hx, heq⟩
      rw [← heq]
      exact ⟨List.mem_cons_self _ _, rfl, hx⟩
    · rcases ih r h with ⟨h1, h2, h3⟩
      exact ⟨List.mem_cons_of_mem _ h1, h2, h3⟩

/-- Claim C8: when the sampled-data map has no entry for the child
table yet, the entry built by the parent-row loop is exactly the
concatenation of the stamped batches, so every sampled child row
carries as foreign key value the primary key of the parent row it was
generated from, its foreign key column is the first declared foreign
key, and in particular every foreign key value in the sampled child
table belongs to the set of generated parent ids. -/
theorem claim_C8 (sf : String → ℕ → List ℚ) (fks : List String) (childName : String)
    (pks : List ℕ) (sd : SampledData) (h0 : alookup childName sd = none) :
    ∀ rows, alookup childName (sampleChildLoop sf fks childName pks sd) = some rows →
      rows = concatBatches sf (fks.headD "") pks ∧
      ∀ r ∈ rows, r.2.2 ∈ pks ∧ r.2.1 = fks.headD "" ∧ r.1 ∈ sf (fks.headD "") r.2.2 := by
  intro rows hrows
  rw [sampleChildLoop_absent sf fks childName pks sd h0] at hrows
  by_cases hempty : concatBatches sf (fks.headD "") pks = []
  · rw [if_pos hempty] at hrows
    cases hrows
  · rw [if_neg hempty] at hrows
    have heq := Option.some.inj hrows
    constructor
    · exact heq.symm
    · intro r hr
      rw [← heq] at hr
      exact mem_concatBatches sf _ pks r hr

/-- Witness for claim C8 at a concrete sampler over parents 1, 2, 3
where parent 2 yields an empty batch. -/
theorem claim_C8_witness :
    (1 ∈ ([1, 2, 3] : List ℕ)) ∧ "fk1" = (["fk1", "fk2"].headD "") ∧
      (10 : ℚ) ∈ sampleForC8 (["fk1", "fk2"].headD "") 1 := by
  have h := claim_C8 sampleForC8 ["fk1", "fk2"] "child" [1, 2, 3] [] rfl
    [(10, "fk1", 1), (11, "fk1", 1), (10, "fk1", 3), (11, "fk1", 3)] rfl
  exact h.2 (10, "fk1", 1) (by decide)

/-- Claim C9: the sampled-data entry for a child table is created only
when some parent row yields a non-empty batch; when every parent row
yields zero child rows the subsequent lookup of the child entry fails
(the KeyError of sampled_data[child_name]), and a recorded entry is
never the empty table. -/
theorem claim_C9 (sf : String → ℕ → List ℚ) (fks : List String) (childName : String)
    (pks : List ℕ) (sd : SampledData) (h0 : alookup childName sd = none) :
    ((∀ pk ∈ pks, sf (fks.headD "") pk = []) →
      sampleChildrenLookup sf fks childName pks sd = .error ()) ∧
    (∀ sd2 rows, sampleChildrenLookup sf fks childName pks sd = .ok (sd2, rows) →
      rows ≠ []) ∧
    ((alookup childName (sampleChildLoop sf fks childName pks sd)).isSome = true ↔
      ¬(∀ pk ∈ pks, sf (fks.headD "") pk = [])) := by
  have habs := sampleChildLoop_absent sf fks childName pks sd h0
  refine ⟨?_, ?_, ?_⟩
  · intro hall
    have hnil : concatBatches sf (fks.headD "") pks = [] :=
      (concatBatches_eq_nil sf _ pks).mpr hall
    unfold sampleChildrenLookup
    rw [habs, if_pos hnil]
  · intro sd2 rows hok
    unfold sampleChildrenLookup at hok
    rw [habs] at hok
    by_cases hempty : concatBatches sf (fks.headD "") pks = []
    · rw [if_pos hempty] at hok
      cases hok
    · rw [if_neg hempty] at hok
      have hrows := congrArg Prod.snd (Except.ok.inj hok)
      simp only at hrows
      rw [← hrows]
      exact hempty
  · rw [habs]
    by_cases hempty : concatBatches sf (fks.headD "") pks = []
    · rw [if_pos hempty]
      have hP := (concatBatches_eq_nil sf _ pks).mp hempty
      constructor
      · intro hfalse
        exact Bool.noConfusion hfalse
      · intro hnP
        exact absurd hP hnP
    · rw [if_neg hempty]
      constructor
      · intro _ hall
        exact hempty ((concatBatches_eq_nil sf _ pks).mpr hall)
      · intro _
        rfl

/-- Witness for claim C9 at an all-empty sampler. -/
theorem claim_C9_witness :
    sampleChildrenLookup (fun _ _ => ([] : List ℚ)) ["k"] "child" [1, 2] [] = .error () :=
  (claim_C9 (fun _ _ => []) ["k"] "child" [1, 2] [] rfl).1 (fun _ _ => rfl)

/- ===== Claim C10: only the first declared foreign key is sampled ===== -/

/-- Claim C10: for a parent-child pair with several declared foreign
keys, the child-sampling loop behaves identically to the loop run with
only the first declared foreign key (parameter extraction, sampling
and stamping all use position 0 of the foreign key list), while the
fit-time extension step records one max-child-rows registry entry for
every declared foreign key of the pair. -/
theorem claim_C10 :
    (∀ (sf : String → ℕ → List ℚ) (fk0 : String) (rest : List String)
      (childName : String) (pks : List ℕ) (sd : SampledData),
      sampleChildLoop sf (fk0 :: rest) childName pks sd
        = sampleChildLoop sf [fk0] childName pks sd) ∧
    (∀ (tableName : String) (fks : List String) (parentIndex : List ℕ)
      (extFor : String → List (ℕ × List (String × Option ℚ))),
      (extendTableRegistry tableName fks parentIndex extFor).map Prod.fst
        = fks.map (numRowsKey tableName)) := by
  constructor
  · intro sf fk0 rest childName pks sd
    induction pks generalizing sd with
    | nil => rfl
    | cons pk pks2 ih =>
      unfold sampleChildLoop
      rw [show sampleChildRowsStep sf (fk0 :: rest) childName pk sd
        = sampleChildRowsStep sf [fk0] childName pk sd from rfl]
      exact ih _
  · intro tableName fks parentIndex extFor
    unfold extendTableRegistry
    rw [List.map_map]
    rfl

end HMA
